import Mathlib

/-!
Verification of the stack-reconciliation core of `jj_extensions.sync`.

Strings are modelled as `List Char`; Python's string operations
(`strip`, `lstrip`, `rstrip`, `in`, `split(sep, 1)`, `rsplit(" ", 1)`,
`split(",")`, `splitlines`) are given faithful executable counterparts.
Every definition follows the source in `src/jj_extensions/sync.py`.
-/

set_option maxRecDepth 100000

namespace JJExt

abbrev Str := List Char

/-- The whitespace characters stripped by Python's `str.strip` (ASCII range,
which is all the repository's data ever contains). -/
def pyWs (c : Char) : Bool :=
  c = ' ' || c = '\t' || c = '\n' || c = '\r' || c = '\x0b' || c = '\x0c'

/-- Python `str.lstrip()`: drop leading whitespace. -/
def lstrip : Str → Str
  | [] => []
  | c :: t => if pyWs c then lstrip t else c :: t

/-- Python `str.rstrip()`: drop trailing whitespace. -/
def rstrip : Str → Str
  | [] => []
  | c :: t =>
    let r := rstrip t
    if r.isEmpty then (if pyWs c then [] else [c]) else c :: r

/-- Python `str.strip()`: drop whitespace at both ends. -/
def pyStrip (l : Str) : Str := lstrip (rstrip l)

/-- Split at the first occurrence of `sep`: `splitOnce sep l = some (a, b)`
with `l = a ++ sep ++ b` and the occurrence leftmost; `none` when `sep` does
not occur.  This models Python `l.split(sep, 1)` when it yields two parts,
and `(splitOnce sep l).isSome` models Python's `sep in l`. -/
def splitOnce (sep : Str) : Str → Option (Str × Str)
  | [] => if sep = [] then some ([], []) else none
  | c :: t =>
    if sep.isPrefixOf (c :: t) then some ([], (c :: t).drop sep.length)
    else (splitOnce sep t).map fun p => (c :: p.1, p.2)

/-- `STACK_SECTION_TEMPLATE`'s opening marker `<!-- {key}:start -->`. -/
def startMarker (key : Str) : Str := "<!-- ".data ++ key ++ ":start -->".data

/-- `STACK_SECTION_TEMPLATE`'s closing marker `<!-- {key}:end -->`. -/
def endMarker (key : Str) : Str := "<!-- ".data ++ key ++ ":end -->".data

/-- The blank-line separator `"\n\n"` used by `upsert_marker_section`. -/
def nl2 : Str := ['\n', '\n']

/-- One line of the rendered stack section:
`f"- {'👉 ' if i == current_index else ''}#{num}"`. -/
def stackLine (isCur : Bool) (num : Nat) : Str :=
  "- ".data ++ (if isCur then "👉 ".data else []) ++ "#".data ++ (Nat.repr num).data

/-- `render_stack_section`: the lines joined by `"\n"` and wrapped in the
marker pair, following `STACK_SECTION_TEMPLATE`. -/
def render_stack_section (key : Str) (nums : List Nat) (cur : Nat) : Str :=
  startMarker key ++ '\n' ::
    (List.intercalate ['\n'] (nums.enum.map fun p => stackLine (p.1 = cur) p.2)) ++
    '\n' :: endMarker key

/-- `upsert_marker_section`: replace the marker-delimited region when both
markers occur in the body, otherwise prepend the new section. -/
def upsert_marker_section (existing_body : Str) (marker_key : Str) (new_section : Str) : Str :=
  let s := startMarker marker_key
  let e := endMarker marker_key
  match splitOnce s existing_body, splitOnce e existing_body with
  | some pre_rest, some q_post =>
    let before := rstrip pre_rest.1
    let after := lstrip q_post.2
    pyStrip (before ++ nl2 ++ new_section ++ (if after = [] then [] else nl2 ++ after))
  | _, _ =>
    if pyStrip existing_body = [] then new_section
    else pyStrip (new_section ++ nl2 ++ pyStrip existing_body)

/-- Python `str.splitlines()` for `'\n'`-terminated text (the only line
terminator the collaborators emit): split on `'\n'`, without a trailing
empty piece. -/
def splitNl : Str → List Str
  | [] => [[]]
  | c :: t =>
    match splitNl t with
    | [] => [[]]
    | h :: r => if c = '\n' then [] :: h :: r else (c :: h) :: r

def pySplitlines (l : Str) : List Str :=
  let ps := splitNl l
  if ps.getLast? = some [] then ps.dropLast else ps

/-- Python `str.split(",")` (keeps empty pieces). -/
def splitComma : Str → List Str
  | [] => [[]]
  | c :: t =>
    match splitComma t with
    | [] => [[]]
    | h :: r => if c = ',' then [] :: h :: r else (c :: h) :: r

/-- Python `str.rsplit(" ", 1)` when it produces two parts (`none` models the
`ValueError` raised by two-target unpacking when no space occurs). -/
def rsplitSpace (l : Str) : Option (Str × Str) :=
  match splitOnce [' '] l.reverse with
  | some p => some (p.2.reverse, p.1.reverse)
  | none => none

theorem dropWhile_length_le (p : Char → Bool) (l : Str) :
    (l.dropWhile p).length ≤ l.length := by
  induction l with
  | nil => simp [List.dropWhile]
  | cons c t ih =>
    simp only [List.dropWhile]
    cases p c
    · simp
    · simpa using Nat.le_succ_of_le ih

/-- Python `str.split()` with no argument: whitespace-delimited words. -/
def pySplitWs (l : Str) : List Str :=
  match l with
  | [] => []
  | c :: t =>
    if pyWs c then pySplitWs t
    else List.takeWhile (fun d => ¬ pyWs d) (c :: t) ::
      pySplitWs (List.dropWhile (fun d => ¬ pyWs d) t)
termination_by l.length
decreasing_by
  · simp only [List.length_cons]; omega
  · simp only [List.length_cons]
    have := dropWhile_length_le (fun d => decide (¬ pyWs d)) t
    omega

structure BranchInfo where
  name : Str
  target : Str
deriving DecidableEq, Repr

/-- `_sanitize_branch_name`. -/
def sanitize_branch_name (raw : Str) : Option Str :=
  let name := pyStrip raw
  if name = [] then none
  else if name.head? = some '@' then none
  else
    let name' := if name.getLast? = some ':' then name.dropLast else name
    if name' = [] then none else some name'

/-- `list_branches`: the templated query first (`none` models the command
failing); if it yields no branches, fall back to plain-text parsing.  Both
collaborator outputs pass through `run_ok`, which strips them. -/
def list_branches (templated_out : Option Str) (plain_out : Str) : List BranchInfo :=
  let tbranches : List BranchInfo :=
    match templated_out with
    | some out => (pySplitlines (pyStrip out)).filterMap fun line =>
        (sanitize_branch_name line).map fun n => ⟨n, []⟩
    | none => []
  if tbranches ≠ [] then tbranches
  else
    (pySplitlines (pyStrip plain_out)).filterMap fun line =>
      if pyStrip line = [] then none
      else
        match pySplitWs (pyStrip line) with
        | [] => none
        | tok :: _ => (sanitize_branch_name tok).map fun n => ⟨n, []⟩

/-- Order-preserving deduplication (the `seen` set of
`sort_branches_as_stack`). -/
def dedupAux (seen : List Str) : List Str → List Str
  | [] => []
  | n :: rest => if n ∈ seen then dedupAux seen rest else n :: dedupAux (n :: seen) rest

/-- One parsed line of the `jj log` template output:
`left, commit = line.rsplit(" ", 1)` then the comma-separated branch names
with empties dropped. -/
def parseStackLine (line : Str) : Option (Str × List Str) :=
  (rsplitSpace line).map fun p => (p.2, (splitComma p.1).filter (fun n => n ≠ []))

/-- The parsed `(commit, branch names)` entries of the log output, blank
lines dropped, unparseable lines skipped. -/
def parseEntries (log_out : Str) : List (Str × List Str) :=
  ((pySplitlines (pyStrip log_out)).filter fun l => pyStrip l ≠ []).filterMap parseStackLine

/-- The inner emission loop: append each annotated name that is an input
name and not yet emitted. -/
def emitEntry (names : List Str) (acc : List Str) : List Str → List Str
  | [] => acc
  | b :: rest => emitEntry names (if b ∈ names ∧ b ∉ acc then acc ++ [b] else acc) rest

/-- The walk over all parsed log entries. -/
def emitAll (names : List Str) (acc : List Str) : List (Str × List Str) → List Str
  | [] => acc
  | e :: rest => emitAll names (emitEntry names acc e.2) rest

/-- `sort_branches_as_stack`, with the `jj log` output passed in as the
collaborator's reply. -/
def sort_branches_as_stack (branches : List BranchInfo) (log_out : Str) : List Str :=
  let names := dedupAux [] (branches.map BranchInfo.name)
  if names = [] then []
  else
    let ordered := emitAll names [] (parseEntries log_out)
    ordered ++ names.filter (fun b => b ∉ ordered)

/-- Whether a name is annotated on some parsed log entry (used to state
which branches the topological result mentions). -/
def annotatedIn (entries : List (Str × List Str)) (n : Str) : Bool :=
  entries.any fun e => decide (n ∈ e.2)

structure PullRequest where
  number : Nat
  head : Str
  base : Str
  body : Str
deriving DecidableEq, Repr

/-- The argument vector built by `gh_update_pr`: `--base` only for a truthy
(non-`None`, non-empty) base, `--body` for any non-`None` body. -/
def gh_update_pr_args (number : Nat) (base : Option Str) (body : Option Str) : List Str :=
  ["gh".data, "pr".data, "edit".data, (Nat.repr number).data]
    ++ (match base with
        | some b => if b = [] then [] else ["--base".data, b]
        | none => [])
    ++ (match body with
        | some b => ["--body".data, b]
        | none => [])

/-- A head-indexed directory of pull requests (Python `dict`), newest
insertion first so lookup finds the latest binding. -/
def dinsert (d : List (Str × PullRequest)) (k : Str) (v : PullRequest) :
    List (Str × PullRequest) := (k, v) :: d

def dget (d : List (Str × PullRequest)) (k : Str) : Option PullRequest :=
  (d.find? fun p => p.1 = k).map (·.2)

/-- `gh_list_open_prs_by_head`: index the open pull requests by head name,
later entries overwriting earlier ones. -/
def mkPRDict (prs : List PullRequest) : List (Str × PullRequest) :=
  prs.foldl (fun d pr => dinsert d pr.head pr) []

/-- The mutating external calls `sync_stack` can issue. -/
inductive Call where
  | push (remote : Str)
  | create (head : Str) (base : Str) (title : Str) (body : Str)
  | update (number : Nat) (base : Option Str) (body : Option Str)
deriving DecidableEq, Repr

/-- The collaborators' replies to `sync_stack`'s read-only queries, plus the
number the code host assigns to each created pull request. -/
structure SyncEnv where
  templatedBookmarks : Option Str
  plainBookmarks : Str
  logOut : Str
  defaultBranch : Str
  openPRs : List PullRequest
  createNum : Str → Str → Nat

/-- The first reconciliation loop of `sync_stack`: walk the ordered names,
each based on the previous (the default base first), creating missing pull
requests (placeholder number `0` in dry-run) and re-basing mismatched ones.
Returns the issued calls, the chain's numbers, and the updated directory. -/
def reconcileLoop (dry : Bool) (createNum : Str → Str → Nat) :
    Str → List Str → List (Str × PullRequest) →
    List Call × List Nat × List (Str × PullRequest)
  | _, [], d => ([], [], d)
  | base, bn :: rest, d =>
    match dget d bn with
    | none =>
      if dry then
        let r := reconcileLoop dry createNum bn rest d
        (r.1, 0 :: r.2.1, r.2.2)
      else
        let num := createNum bn base
        let d2 := if num ≠ 0 then dinsert d bn ⟨num, bn, base, []⟩ else d
        let r := reconcileLoop dry createNum bn rest d2
        (Call.create bn base bn [] :: r.1, num :: r.2.1, r.2.2)
    | some pr =>
      let t0 : List Call :=
        if pr.base ≠ base ∧ ¬ dry then [Call.update pr.number (some base) none] else []
      let r := reconcileLoop dry createNum bn rest d
      (t0 ++ r.1, pr.number :: r.2.1, r.2.2)

/-- The second loop of `sync_stack`: rewrite every resolved pull request's
body with the rendered stack section, unless dry-run. -/
def rewriteLoop (dry : Bool) (marker_key : Str) (nums : List Nat)
    (d : List (Str × PullRequest)) : Nat → List Str → List Call
  | _, [] => []
  | idx, bn :: rest =>
    let tail := rewriteLoop dry marker_key nums d (idx + 1) rest
    match dget d bn with
    | none => tail
    | some pr =>
      if dry then tail
      else
        Call.update pr.number none
          (some (upsert_marker_section pr.body marker_key
            (render_stack_section marker_key nums idx))) :: tail

/-- `sync_stack`: push, discover, order, reconcile, rewrite.  Returns the
sequence of mutating calls issued and the chain's pull-request numbers. -/
def sync_stack (env : SyncEnv) (remote : Str) (default_base : Option Str)
    (marker_key : Str) (dry_run : Bool) : List Call × List Nat :=
  let branches := list_branches env.templatedBookmarks env.plainBookmarks
  if branches = [] then ([Call.push remote], [])
  else
    let ordered := sort_branches_as_stack branches env.logOut
    let base_default := default_base.getD env.defaultBranch
    let d0 := mkPRDict env.openPRs
    let r := reconcileLoop dry_run env.createNum base_default ordered d0
    let t2 := rewriteLoop dry_run marker_key r.2.1 r.2.2 0 ordered
    (Call.push remote :: (r.1 ++ t2), r.2.1)

/-! ## Theorems -/

/-- C10: in `gh_update_pr`, an empty-string base is treated as omitted (the
`--base` flag is not sent, same as a `None` base), while an empty-string body
is still transmitted (`--body` with the empty argument); with `base=""` and
`body=None` no field-changing flag is sent at all. -/
theorem gh_update_pr_empty_base_omitted (n : Nat) :
    gh_update_pr_args n (some []) none
      = ["gh".data, "pr".data, "edit".data, (Nat.repr n).data] ∧
    gh_update_pr_args n (some []) none = gh_update_pr_args n none none ∧
    gh_update_pr_args n (some []) (some [])
      = ["gh".data, "pr".data, "edit".data, (Nat.repr n).data, "--body".data, []] := by
  refine ⟨?_, ?_, ?_⟩ <;> simp [gh_update_pr_args]

/-- C3 counterexample: the spec's scenario 3 uses markers without interior
spaces (`<!--jj-stack-sync:start-->`), but the code's markers carry interior
spaces (`<!-- jj-stack-sync:start -->`), so the body's section is not
recognized and the claimed merge result is not produced. -/
theorem upsert_scenario3_counterexample :
    upsert_marker_section
        "Fixes #12\n<!--jj-stack-sync:start-->\nstale\n<!--jj-stack-sync:end-->\nThanks".data
        "jj-stack-sync".data
        "<!--jj-stack-sync:start-->\nfresh\n<!--jj-stack-sync:end-->".data
      ≠ "Fixes #12\n\n<!--jj-stack-sync:start-->\nfresh\n<!--jj-stack-sync:end-->\n\nThanks".data := by
  decide

/-- C3 (amended): on scenario 3's literal inputs the marker pair (spelled
with the code's interior spaces) does not occur in the body, so `upsert`
takes the prepend path: the new section, a blank line, then the original
body unchanged. -/
theorem upsert_scenario3_actual :
    upsert_marker_section
        "Fixes #12\n<!--jj-stack-sync:start-->\nstale\n<!--jj-stack-sync:end-->\nThanks".data
        "jj-stack-sync".data
        "<!--jj-stack-sync:start-->\nfresh\n<!--jj-stack-sync:end-->".data
      = ("<!--jj-stack-sync:start-->\nfresh\n<!--jj-stack-sync:end-->\n\n"
          ++ "Fixes #12\n<!--jj-stack-sync:start-->\nstale\n<!--jj-stack-sync:end-->\nThanks").data := by
  decide

theorem reconcileLoop_dry (createNum : Str → Str → Nat) (base : Str)
    (names : List Str) (d : List (Str × PullRequest)) :
    reconcileLoop true createNum base names d
      = ([], names.map (fun n => ((dget d n).map PullRequest.number).getD 0), d) := by
  induction names generalizing base with
  | nil => rfl
  | cons bn rest ih =>
    simp only [reconcileLoop]
    cases h : dget d bn with
    | none => simp [h, ih]
    | some pr => simp [h, ih]

theorem rewriteLoop_dry (marker_key : Str) (nums : List Nat)
    (d : List (Str × PullRequest)) (idx : Nat) (names : List Str) :
    rewriteLoop true marker_key nums d idx names = [] := by
  induction names generalizing idx with
  | nil => rfl
  | cons bn rest ih =>
    simp only [rewriteLoop]
    cases h : dget d bn with
    | none => simp [h, ih]
    | some pr => simp [h, ih]

/-- C8: a dry-run issues exactly the initial push and no create or update
call to the code host; a missing review request is recorded as the
placeholder number `0`, positionally, in the computed chain numbering, and
an existing one contributes its real number. -/
theorem sync_stack_dry_run (env : SyncEnv) (remote : Str)
    (default_base : Option Str) (marker_key : Str) :
    sync_stack env remote default_base marker_key true
      = ([Call.push remote],
         (sort_branches_as_stack (list_branches env.templatedBookmarks env.plainBookmarks)
             env.logOut).map
           (fun n => ((dget (mkPRDict env.openPRs) n).map PullRequest.number).getD 0)) := by
  simp only [sync_stack]
  split
  · rename_i h
    simp [h, sort_branches_as_stack, dedupAux]
  · simp [reconcileLoop_dry, rewriteLoop_dry]

/-! ### Deduplication and emission lemmas for the stack orderer -/

theorem dedupAux_mem {x : Str} : ∀ {seen l : List Str},
    x ∈ dedupAux seen l ↔ x ∈ l ∧ x ∉ seen := by
  intro seen l
  induction l generalizing seen with
  | nil => simp [dedupAux]
  | cons n rest ih =>
    simp only [dedupAux]
    split
    · rename_i hn
      rw [ih]
      constructor
      · rintro ⟨h1, h2⟩
        exact ⟨List.mem_cons_of_mem _ h1, h2⟩
      · rintro ⟨h1, h2⟩
        rcases List.mem_cons.mp h1 with rfl | h1
        · exact absurd hn h2
        · exact ⟨h1, h2⟩
    · rename_i hn
      simp only [List.mem_cons, ih, List.mem_cons]
      constructor
      · rintro (rfl | ⟨h1, h2⟩)
        · exact ⟨Or.inl rfl, hn⟩
        · exact ⟨Or.inr h1, fun hx => h2 (Or.inr hx)⟩
      · rintro ⟨rfl | h1, h2⟩
        · exact Or.inl rfl
        · by_cases hxn : x = n
          · exact Or.inl hxn
          · exact Or.inr ⟨h1, fun hs => hs.elim hxn h2⟩

theorem dedupAux_nodup : ∀ (seen l : List Str), (dedupAux seen l).Nodup := by
  intro seen l
  induction l generalizing seen with
  | nil => simp [dedupAux]
  | cons n rest ih =>
    simp only [dedupAux]
    split
    · exact ih seen
    · refine List.Nodup.cons (fun h => ?_) (ih (n :: seen))
      exact (dedupAux_mem.mp h).2 (List.mem_cons_self _ _)

theorem emitEntry_decomp (names : List Str) : ∀ (bn : List Str) (acc : List Str),
    ∃ d, emitEntry names acc bn = acc ++ d ∧ ∀ x ∈ d, x ∈ names ∧ x ∈ bn := by
  intro bn
  induction bn with
  | nil => exact fun acc => ⟨[], by simp [emitEntry]⟩
  | cons b rest ih =>
    intro acc
    simp only [emitEntry]
    split
    · rename_i hb
      obtain ⟨d, hd, hmem⟩ := ih (acc ++ [b])
      refine ⟨b :: d, by simpa using hd, ?_⟩
      intro x hx
      rcases List.mem_cons.mp hx with rfl | hx
      · exact ⟨hb.1, List.mem_cons_self _ _⟩
      · exact ⟨(hmem x hx).1, List.mem_cons_of_mem _ (hmem x hx).2⟩
    · obtain ⟨d, hd, hmem⟩ := ih acc
      exact ⟨d, hd, fun x hx => ⟨(hmem x hx).1, List.mem_cons_of_mem _ (hmem x hx).2⟩⟩

theorem emitEntry_mono {x : Str} (names : List Str) : ∀ (bn acc : List Str),
    x ∈ acc → x ∈ emitEntry names acc bn := by
  intro bn acc hx
  obtain ⟨d, hd, -⟩ := emitEntry_decomp names bn acc
  rw [hd]
  exact List.mem_append_left _ hx

theorem emitEntry_mem_of {b : Str} (names : List Str) (hn : b ∈ names) :
    ∀ (bn acc : List Str), b ∈ bn → b ∈ emitEntry names acc bn := by
  intro bn
  induction bn with
  | nil => simp
  | cons b' rest ih =>
    intro acc hb
    simp only [emitEntry]
    rcases List.mem_cons.mp hb with rfl | hb
    · by_cases hcond : b ∈ names ∧ b ∉ acc
      · rw [if_pos hcond]
        exact emitEntry_mono names rest _ (by simp)
      · rw [if_neg hcond]
        have hacc : b ∈ acc := by
          by_contra hna
          exact hcond ⟨hn, hna⟩
        exact emitEntry_mono names rest _ hacc
    · split <;> exact ih _ hb

theorem emitEntry_nodup (names : List Str) : ∀ (bn acc : List Str),
    acc.Nodup → (emitEntry names acc bn).Nodup := by
  intro bn
  induction bn with
  | nil => exact fun acc h => h
  | cons b rest ih =>
    intro acc hacc
    simp only [emitEntry]
    split
    · rename_i hb
      refine ih _ ?_
      simp [List.nodup_append, hacc, List.disjoint_singleton, hb.2]
    · exact ih _ hacc

theorem annotatedIn_cons {e : Str × List Str} {es : List (Str × List Str)} {n : Str} :
    annotatedIn (e :: es) n = (decide (n ∈ e.2) || annotatedIn es n) := by
  simp [annotatedIn]

theorem emitAll_entries_append (names acc : List Str) :
    ∀ (es1 es2 : List (Str × List Str)),
    emitAll names acc (es1 ++ es2) = emitAll names (emitAll names acc es1) es2 := by
  intro es1
  induction es1 generalizing acc with
  | nil => intro es2; rfl
  | cons e rest ih => intro es2; simp only [List.cons_append, emitAll]; exact ih _ _

theorem emitAll_decomp (names : List Str) : ∀ (es : List (Str × List Str)) (acc : List Str),
    ∃ d, emitAll names acc es = acc ++ d ∧
      ∀ x ∈ d, x ∈ names ∧ annotatedIn es x = true := by
  intro es
  induction es with
  | nil => exact fun acc => ⟨[], by simp [emitAll]⟩
  | cons e rest ih =>
    intro acc
    simp only [emitAll]
    obtain ⟨d1, hd1, hm1⟩ := emitEntry_decomp names e.2 acc
    obtain ⟨d2, hd2, hm2⟩ := ih (emitEntry names acc e.2)
    refine ⟨d1 ++ d2, by rw [hd2, hd1, List.append_assoc], ?_⟩
    intro x hx
    rcases List.mem_append.mp hx with hx | hx
    · exact ⟨(hm1 x hx).1, by simp [annotatedIn_cons, (hm1 x hx).2]⟩
    · exact ⟨(hm2 x hx).1, by simp [annotatedIn_cons, (hm2 x hx).2]⟩

theorem emitAll_mono {x : Str} (names : List Str) (es : List (Str × List Str))
    (acc : List Str) (hx : x ∈ acc) : x ∈ emitAll names acc es := by
  obtain ⟨d, hd, -⟩ := emitAll_decomp names es acc
  rw [hd]
  exact List.mem_append_left _ hx

theorem emitAll_mem_of {n : Str} (names : List Str) (hn : n ∈ names) :
    ∀ (es : List (Str × List Str)) (acc : List Str),
    annotatedIn es n = true → n ∈ emitAll names acc es := by
  intro es
  induction es with
  | nil => simp [annotatedIn]
  | cons e rest ih =>
    intro acc ha
    rw [annotatedIn_cons, Bool.or_eq_true] at ha
    simp only [emitAll]
    rcases ha with ha | ha
    · exact emitAll_mono names rest _
        (emitEntry_mem_of names hn e.2 acc (by simpa using ha))
    · exact ih _ ha

theorem emitAll_nodup (names : List Str) : ∀ (es : List (Str × List Str)) (acc : List Str),
    acc.Nodup → (emitAll names acc es).Nodup := by
  intro es
  induction es with
  | nil => exact fun acc h => h
  | cons e rest ih => exact fun acc hacc => ih _ (emitEntry_nodup names e.2 acc hacc)

/-- C7: the orderer returns the deduplicated input names as a permutation
(never dropping or duplicating a branch); the names absent from the
topological result form the tail, in original (deduplicated) input order;
an empty input yields an empty result. -/
theorem sort_branches_as_stack_complete (branches : List BranchInfo) (log_out : Str) :
    (sort_branches_as_stack branches log_out).Perm
        (dedupAux [] (branches.map BranchInfo.name)) ∧
    (∃ front, sort_branches_as_stack branches log_out
        = front ++ (dedupAux [] (branches.map BranchInfo.name)).filter
            (fun n => !annotatedIn (parseEntries log_out) n) ∧
        ∀ n ∈ front, annotatedIn (parseEntries log_out) n = true) ∧
    sort_branches_as_stack [] log_out = [] := by
  have hthird : sort_branches_as_stack [] log_out = [] := by
    simp [sort_branches_as_stack, dedupAux]
  by_cases hn : dedupAux [] (branches.map BranchInfo.name) = []
  · refine ⟨?_, ⟨[], ?_, by simp⟩, hthird⟩
    · simp [sort_branches_as_stack, hn]
    · simp [sort_branches_as_stack, hn]
  · have hsort : sort_branches_as_stack branches log_out
        = emitAll (dedupAux [] (branches.map BranchInfo.name)) [] (parseEntries log_out)
          ++ (dedupAux [] (branches.map BranchInfo.name)).filter
              (fun b => decide (b ∉ emitAll (dedupAux [] (branches.map BranchInfo.name)) []
                (parseEntries log_out))) := by
      rw [sort_branches_as_stack, if_neg hn]
    revert hsort
    generalize hnm : dedupAux [] (branches.map BranchInfo.name) = names at hn ⊢
    generalize hes : parseEntries log_out = es
    generalize hph : emitAll names [] es = ph
    intro hsort
    have hph_nodup : ph.Nodup := hph ▸ emitAll_nodup names es [] (by simp)
    have hnames_nodup : names.Nodup := hnm ▸ dedupAux_nodup [] _
    have hph_sub : ∀ x ∈ ph, x ∈ names ∧ annotatedIn es x = true := by
      obtain ⟨d, hd, hmem⟩ := emitAll_decomp names es []
      intro x hx
      rw [← hph, hd] at hx
      exact hmem x (by simpa using hx)
    have hiff : ∀ m ∈ names, (m ∈ ph ↔ annotatedIn es m = true) := by
      intro m hm
      constructor
      · exact fun h => (hph_sub m h).2
      · exact fun h => hph ▸ emitAll_mem_of names hm es [] h
    refine ⟨?_, ⟨ph, ?_, fun m hm => (hph_sub m hm).2⟩, hthird⟩
    · rw [hsort]
      have hres_nodup : (ph ++ names.filter (fun b => decide (b ∉ ph))).Nodup := by
        rw [List.nodup_append]
        refine ⟨hph_nodup, List.Nodup.filter _ hnames_nodup, ?_⟩
        intro a ha hfa
        have := (List.mem_filter.mp hfa).2
        simp only [decide_eq_true_eq] at this
        exact this ha
      rw [List.perm_ext_iff_of_nodup hres_nodup hnames_nodup]
      intro a
      constructor
      · intro ha
        rcases List.mem_append.mp ha with ha | ha
        · exact (hph_sub a ha).1
        · exact (List.mem_filter.mp ha).1
      · intro ha
        by_cases hap : a ∈ ph
        · exact List.mem_append_left _ hap
        · exact List.mem_append_right _ (List.mem_filter.mpr ⟨ha, by simpa using hap⟩)
    · rw [hsort]
      congr 1
      apply List.filter_congr
      intro m hm
      by_cases hmp : m ∈ ph
      · have h1 : annotatedIn es m = true := (hiff m hm).mp hmp
        simp [hmp, h1]
      · have h1 : annotatedIn es m = false := by
          cases h : annotatedIn es m
          · rfl
          · exact absurd ((hiff m hm).mpr h) hmp
        simp [hmp, h1]

theorem mem_take_index {α : Type} {e : α} {es : List α} {k : Nat} (h : e ∈ es.take k) :
    ∃ j, ∃ hj : j < es.length, j < k ∧ es.get ⟨j, hj⟩ = e := by
  obtain ⟨⟨j, hj⟩, hget⟩ := List.mem_iff_get.mp h
  have hjk : j < k := lt_of_lt_of_le hj (by simp [List.length_take])
  have hjl : j < es.length := lt_of_lt_of_le hj (by simp [List.length_take])
  refine ⟨j, hjl, hjk, ?_⟩
  rw [← hget]
  simp [List.get_eq_getElem, List.getElem_take]

/-- C2: whenever the parsed log entries are topologically ordered with
ancestors before descendants (the collaborator's contract), branch `A`
points at commit `ca`, branch `B` points at commit `cb`, and `ca` is a
strict ancestor of `cb`, the orderer emits `A` strictly before `B`. -/
theorem sort_branches_as_stack_respects_ancestry
    (branches : List BranchInfo) (log_out : Str)
    (anc : Str → Str → Prop) (A B ca cb : Str)
    (es : List (Str × List Str)) (hes : parseEntries log_out = es)
    (names : List Str) (hnm : dedupAux [] (branches.map BranchInfo.name) = names)
    (htopo : ∀ i j : Fin es.length, anc (es.get i).1 (es.get j).1 → (i : ℕ) < (j : ℕ))
    (hA : A ∈ names) (hB : B ∈ names)
    (hAann : ∃ i : Fin es.length, A ∈ (es.get i).2)
    (hBann : ∃ i : Fin es.length, B ∈ (es.get i).2)
    (hAca : ∀ i : Fin es.length, A ∈ (es.get i).2 → (es.get i).1 = ca)
    (hBcb : ∀ i : Fin es.length, B ∈ (es.get i).2 → (es.get i).1 = cb)
    (hanc : anc ca cb) :
    ∃ l1 l2 l3, sort_branches_as_stack branches log_out = l1 ++ A :: (l2 ++ B :: l3) := by
  have hn : names ≠ [] := fun h => by simp [h] at hA
  have hsort : sort_branches_as_stack branches log_out
      = emitAll names [] es ++ names.filter (fun b => decide (b ∉ emitAll names [] es)) := by
    rw [sort_branches_as_stack, hnm, hes, if_neg hn]
  have hAB : ∀ i j : Fin es.length, A ∈ (es.get i).2 → B ∈ (es.get j).2 → (i : ℕ) < (j : ℕ) := by
    intro i j hAi hBj
    exact htopo i j (by rw [hAca i hAi, hBcb j hBj]; exact hanc)
  obtain ⟨i0, hi0⟩ := hAann
  have hA1 : A ∈ emitAll names [] (es.take ((i0 : ℕ) + 1)) := by
    apply emitAll_mem_of names hA
    apply List.any_eq_true.mpr
    refine ⟨es.get i0, ?_, by simpa using hi0⟩
    have h' : (i0 : ℕ) < (es.take ((i0 : ℕ) + 1)).length := by
      have := i0.isLt
      simp only [List.length_take]
      omega
    exact List.mem_iff_get.mpr ⟨⟨i0, h'⟩, by simp [List.get_eq_getElem, List.getElem_take]⟩
  have hB1 : B ∉ emitAll names [] (es.take ((i0 : ℕ) + 1)) := by
    intro hBin
    obtain ⟨d, hd, hmem⟩ := emitAll_decomp names (es.take ((i0 : ℕ) + 1)) []
    rw [hd] at hBin
    have hann := (hmem B (by simpa using hBin)).2
    obtain ⟨e, hemem, hdec⟩ := List.any_eq_true.mp hann
    obtain ⟨j, hj, hjk, hget⟩ := mem_take_index hemem
    have hBj : B ∈ (es.get ⟨j, hj⟩).2 := by rw [hget]; simpa using hdec
    have h2 : (i0 : ℕ) < j := hAB i0 ⟨j, hj⟩ hi0 hBj
    omega
  have hsplit : emitAll names [] es
      = emitAll names (emitAll names [] (es.take ((i0 : ℕ) + 1))) (es.drop ((i0 : ℕ) + 1)) := by
    conv_lhs => rw [← List.take_append_drop ((i0 : ℕ) + 1) es]
    exact emitAll_entries_append names [] _ _
  obtain ⟨d2, hd2, hm2⟩ := emitAll_decomp names (es.drop ((i0 : ℕ) + 1))
      (emitAll names [] (es.take ((i0 : ℕ) + 1)))
  have hBall : B ∈ emitAll names [] es := by
    obtain ⟨jB, hjB⟩ := hBann
    apply emitAll_mem_of names hB
    apply List.any_eq_true.mpr
    exact ⟨es.get jB, List.get_mem _ _ _, by simpa using hjB⟩
  have hB2 : B ∈ d2 := by
    rw [hsplit, hd2] at hBall
    rcases List.mem_append.mp hBall with h | h
    · exact absurd h hB1
    · exact h
  obtain ⟨x, y, hxy⟩ := List.append_of_mem hA1
  obtain ⟨u, v, huv⟩ := List.append_of_mem hB2
  have hres : ∃ tail, sort_branches_as_stack branches log_out
      = (emitAll names [] (es.take ((i0 : ℕ) + 1)) ++ d2) ++ tail :=
    ⟨_, by rw [hsort, hsplit, hd2]⟩
  obtain ⟨tail, hres⟩ := hres
  refine ⟨x, y ++ u, v ++ tail, ?_⟩
  rw [hres, hxy, huv]
  simp

/-- C2 witness: a two-branch stack whose log entries arrive ancestors-first;
the orderer places the ancestor's branch before the descendant's even though
the input listed them the other way round. -/
theorem sort_branches_as_stack_respects_ancestry_witness :
    ∃ l1 l2 l3, sort_branches_as_stack [⟨"b".data, []⟩, ⟨"a".data, []⟩] "a c1\nb c2".data
      = l1 ++ "a".data :: (l2 ++ "b".data :: l3) :=
  sort_branches_as_stack_respects_ancestry
    [⟨"b".data, []⟩, ⟨"a".data, []⟩] "a c1\nb c2".data
    (fun x y => x = "c1".data ∧ y = "c2".data)
    "a".data "b".data "c1".data "c2".data
    [("c1".data, ["a".data]), ("c2".data, ["b".data])] (by decide)
    ["b".data, "a".data] (by decide)
    (by decide)
    (by decide) (by decide)
    ⟨⟨0, by decide⟩, by decide⟩ ⟨⟨1, by decide⟩, by decide⟩
    (by decide) (by decide)
    ⟨rfl, rfl⟩

/-- C6 counterexample: the spec's marker lines have no interior spaces, but
`render_stack_section` emits `<!-- key:start -->` with interior spaces, so
the rendered section differs from the claimed format. -/
theorem render_marker_spacing_counterexample :
    render_stack_section "jj-stack-sync".data [1] 0
      ≠ "<!--jj-stack-sync:start-->\n- 👉 #1\n<!--jj-stack-sync:end-->".data := by
  decide

/-- C6 (amended): `render_stack_section` is a pure function producing one
line per entry in list order, each formatted `- {glyph}#{number}` with the
pointer glyph exactly on the `current_index` line, wrapped between the
marker lines `<!-- key:start -->` and `<!-- key:end -->` (with interior
spaces, unlike the spec's spelling). -/
theorem render_stack_section_format (key : Str) (nums : List Nat) (i : Nat)
    (h : i < nums.length) :
    ∃ lines : List Str,
      render_stack_section key nums i
        = ("<!-- ".data ++ key ++ ":start -->".data) ++ '\n' ::
            (List.intercalate ['\n'] lines) ++ '\n' ::
            ("<!-- ".data ++ key ++ ":end -->".data) ∧
      lines.length = nums.length ∧
      (∀ j n, nums[j]? = some n →
        lines[j]? = some ("- ".data ++ (if j = i then "👉 ".data else [])
          ++ '#' :: (Nat.repr n).data)) ∧
      (∀ j l, lines[j]? = some l → (("- 👉 ".data).isPrefixOf l = true ↔ j = i)) := by
  refine ⟨nums.enum.map fun p => stackLine (p.1 = i) p.2, ?_, ?_, ?_, ?_⟩
  · rfl
  · simp
  · intro j n hjn
    rw [List.getElem?_map, List.getElem?_enum, hjn]
    by_cases hji : j = i <;> simp [hji, stackLine]
  · intro j l hjl
    rw [List.getElem?_map, List.getElem?_enum] at hjl
    cases hn : nums[j]? with
    | none => simp [hn] at hjl
    | some n =>
      simp only [hn, Option.map_some', Option.some.injEq] at hjl
      subst hjl
      by_cases hji : j = i
      · subst hji
        simp [stackLine]
      · simp only [hji, iff_false, decide_eq_true_eq]
        simp [stackLine, hji]

/-- C6 witness: rendering the chain `[3, 7]` with current position `1`. -/
theorem render_stack_section_format_witness :
    0 < ([3, 7] : List Nat).length ∧
    ∃ lines : List Str,
      render_stack_section "k".data [3, 7] 1
        = ("<!-- ".data ++ "k".data ++ ":start -->".data) ++ '\n' ::
            (List.intercalate ['\n'] lines) ++ '\n' ::
            ("<!-- ".data ++ "k".data ++ ":end -->".data) ∧
      lines.length = ([3, 7] : List Nat).length ∧
      (∀ j n, (([3, 7] : List Nat))[j]? = some n →
        lines[j]? = some ("- ".data ++ (if j = 1 then "👉 ".data else [])
          ++ '#' :: (Nat.repr n).data)) ∧
      (∀ j l, lines[j]? = some l → (("- 👉 ".data).isPrefixOf l = true ↔ j = 1)) :=
  ⟨by decide, render_stack_section_format "k".data [3, 7] 1 (by decide)⟩

/-! ### Whitespace-stripping lemmas -/

theorem rstrip_cons (c : Char) (t : Str) :
    rstrip (c :: t) = if rstrip t = [] then (if pyWs c then [] else [c]) else c :: rstrip t := by
  simp only [rstrip]
  by_cases h : rstrip t = []
  · simp [h]
  · simp [h, List.isEmpty_iff]

theorem lstrip_eq_nil_iff {l : Str} : lstrip l = [] ↔ ∀ c ∈ l, pyWs c = true := by
  induction l with
  | nil => simp [lstrip]
  | cons c t ih =>
    by_cases h : pyWs c
    · simp [lstrip, h, ih]
    · simp [lstrip, h]

theorem rstrip_eq_nil_iff {l : Str} : rstrip l = [] ↔ ∀ c ∈ l, pyWs c = true := by
  induction l with
  | nil => simp [rstrip]
  | cons c t ih =>
    rw [rstrip_cons]
    by_cases h : rstrip t = []
    · have ht := ih.mp h
      rw [if_pos h]
      by_cases hc : pyWs c
      · rw [if_pos hc]
        constructor
        · intro _ d hd
          rcases List.mem_cons.mp hd with rfl | hd
          · exact hc
          · exact ht d hd
        · intro _
          rfl
      · rw [if_neg hc]
        constructor
        · intro hx
          exact absurd hx (List.cons_ne_nil _ _)
        · intro hx
          exact absurd (hx c (List.mem_cons_self _ _)) (by simpa using hc)
    · rw [if_neg h]
      constructor
      · intro hx
        exact absurd hx (List.cons_ne_nil _ _)
      · intro hx
        exact absurd (ih.mpr fun d hd => hx d (List.mem_cons_of_mem _ hd)) h

theorem lstrip_cons_nonws {c : Char} {t : Str} (h : pyWs c = false) :
    lstrip (c :: t) = c :: t := by
  simp [lstrip, h]

theorem lstrip_append (x y : Str) :
    lstrip (x ++ y) = if lstrip x = [] then lstrip y else lstrip x ++ y := by
  induction x with
  | nil => simp [lstrip]
  | cons c t ih =>
    by_cases h : pyWs c
    · simpa [lstrip, h] using ih
    · simp [lstrip, h]

theorem rstrip_append (x y : Str) :
    rstrip (x ++ y) = if rstrip y = [] then rstrip x else x ++ rstrip y := by
  induction x with
  | nil =>
    by_cases h : rstrip y = [] <;> simp [h, rstrip]
  | cons c t ih =>
    rw [List.cons_append, rstrip_cons, ih]
    by_cases h : rstrip y = []
    · simp only [if_pos h, rstrip_cons]
    · have h2 : ¬ (t ++ rstrip y) = [] := by
        simp [h]
      simp only [if_neg h, if_neg h2, List.cons_append]

theorem lstrip_head_nonws {l r : Str} {c : Char} (h : lstrip l = c :: r) : pyWs c = false := by
  induction l with
  | nil => simp [lstrip] at h
  | cons d t ih =>
    by_cases hd : pyWs d
    · rw [lstrip, if_pos hd] at h
      exact ih h
    · rw [lstrip, if_neg hd] at h
      cases h
      simpa using hd

theorem lstrip_idem (l : Str) : lstrip (lstrip l) = lstrip l := by
  cases h : lstrip l with
  | nil => simp [lstrip]
  | cons c t => exact lstrip_cons_nonws (lstrip_head_nonws h)

theorem rstrip_idem (l : Str) : rstrip (rstrip l) = rstrip l := by
  induction l with
  | nil => simp [rstrip]
  | cons c t ih =>
    rw [rstrip_cons]
    by_cases h : rstrip t = []
    · rw [if_pos h]
      by_cases hc : pyWs c
      · simp [hc, rstrip]
      · simp [hc, rstrip_cons, rstrip]
    · rw [if_neg h, rstrip_cons, ih, if_neg h]

theorem lstrip_rstrip_comm (l : Str) : lstrip (rstrip l) = rstrip (lstrip l) := by
  induction l with
  | nil => simp [lstrip, rstrip]
  | cons c t ih =>
    by_cases hc : pyWs c
    · have hL : lstrip (c :: t) = lstrip t := by simp [lstrip, hc]
      rw [hL, ← ih, rstrip_cons]
      by_cases h : rstrip t = []
      · rw [if_pos h, if_pos hc, h]
      · rw [if_neg h]
        simp [lstrip, hc]
    · have hc' : pyWs c = false := by simpa using hc
      have hL : lstrip (c :: t) = c :: t := lstrip_cons_nonws hc'
      rw [hL, rstrip_cons]
      by_cases h : rstrip t = []
      · rw [if_pos h, if_neg hc]
        exact lstrip_cons_nonws hc'
      · rw [if_neg h]
        exact lstrip_cons_nonws hc'

theorem pyStrip_eq_nil_iff {l : Str} : pyStrip l = [] ↔ ∀ c ∈ l, pyWs c = true := by
  constructor
  · intro h
    by_contra hx
    have hr : rstrip l ≠ [] := fun he => hx (rstrip_eq_nil_iff.mp he)
    have hall : ∀ c ∈ rstrip l, pyWs c = true := lstrip_eq_nil_iff.mp h
    have h2 : rstrip (rstrip l) = [] := rstrip_eq_nil_iff.mpr hall
    rw [rstrip_idem] at h2
    exact hr h2
  · intro h
    rw [pyStrip, rstrip_eq_nil_iff.mpr h]
    simp [lstrip]

theorem lstrip_pyStrip (l : Str) : lstrip (pyStrip l) = pyStrip l := by
  rw [pyStrip, lstrip_idem]

theorem rstrip_pyStrip (l : Str) : rstrip (pyStrip l) = pyStrip l := by
  rw [pyStrip, lstrip_rstrip_comm, rstrip_idem, ← lstrip_rstrip_comm]

theorem pyStrip_lstrip (l : Str) : pyStrip (lstrip l) = pyStrip l := by
  rw [pyStrip, ← lstrip_rstrip_comm, pyStrip, lstrip_idem]

theorem pyStrip_rstrip (l : Str) : pyStrip (rstrip l) = pyStrip l := by
  rw [pyStrip, rstrip_idem, ← pyStrip]

theorem rstrip_singleton (c : Char) : rstrip [c] = if pyWs c then [] else [c] := by
  simp [rstrip_cons, rstrip]

theorem rstrip_snoc {c : Char} (x : Str) (h : pyWs c = false) :
    rstrip (x ++ [c]) = x ++ [c] := by
  rw [rstrip_append, rstrip_singleton, h]
  simp

/-! ### First-occurrence (splitOnce) lemmas -/

theorem splitOnce_eq_append {sep : Str} : ∀ {l a b : Str},
    splitOnce sep l = some (a, b) → l = a ++ sep ++ b := by
  intro l
  induction l with
  | nil =>
    intro a b h
    simp only [splitOnce] at h
    split_ifs at h with hs
    · subst hs
      cases h
      rfl
  | cons c t ih =>
    intro a b h
    simp only [splitOnce] at h
    split_ifs at h with hp
    · cases h
      obtain ⟨r, hr⟩ := List.isPrefixOf_iff_prefix.mp hp
      rw [← hr, List.drop_left]
      simp
    · cases hm : splitOnce sep t with
      | none => rw [hm] at h; simp at h
      | some p =>
        rw [hm] at h
        simp only [Option.map_some', Option.some.injEq] at h
        obtain ⟨ha, hb⟩ := Prod.mk.injEq .. ▸ h
        subst ha hb
        have := ih hm
        rw [List.cons_append, List.cons_append, ← this]

theorem splitOnce_not_infix_pre {sep : Str} (hsep : sep ≠ []) : ∀ {l a b : Str},
    splitOnce sep l = some (a, b) → ¬ sep <:+: a := by
  intro l
  induction l with
  | nil =>
    intro a b h
    simp only [splitOnce] at h
    split_ifs at h with hs
    · exact absurd hs hsep
  | cons c t ih =>
    intro a b h
    simp only [splitOnce] at h
    split_ifs at h with hp
    · cases h
      intro hinf
      exact hsep (List.length_eq_zero.mp (Nat.le_zero.mp hinf.length_le))
    · cases hm : splitOnce sep t with
      | none => rw [hm] at h; simp at h
      | some p =>
        rw [hm] at h
        simp only [Option.map_some', Option.some.injEq] at h
        obtain ⟨ha, hb⟩ := Prod.mk.injEq .. ▸ h
        subst ha hb
        intro hinf
        rcases List.infix_cons_iff.mp hinf with hpre | hinf2
        · have ht := splitOnce_eq_append hm
          have : sep <+: c :: t := by
            rw [ht]
            have h2 : (c :: p.1) ++ (sep ++ p.2) = c :: (p.1 ++ sep ++ p.2) := by simp
            rw [← h2]
            exact hpre.trans (List.prefix_append _ _)
          exact hp (List.isPrefixOf_iff_prefix.mpr this)
        · exact ih hm hinf2

theorem splitOnce_of_isPrefix {sep l : Str} (h : sep.isPrefixOf l = true) :
    splitOnce sep l = some ([], l.drop sep.length) := by
  cases l with
  | nil =>
    have : sep = [] := by
      cases sep with
      | nil => rfl
      | cons c s => simp [List.isPrefixOf] at h
    subst this
    simp [splitOnce]
  | cons c t => simp only [splitOnce, if_pos h]

theorem splitOnce_append_left {sep : Str} : ∀ {x a b : Str} (y : Str),
    splitOnce sep x = some (a, b) → splitOnce sep (x ++ y) = some (a, b ++ y) := by
  intro x
  induction x with
  | nil =>
    intro a b y h
    simp only [splitOnce] at h
    split_ifs at h with hs
    · subst hs
      cases h
      cases y with
      | nil => simp [splitOnce]
      | cons c ys => simp [splitOnce, List.isPrefixOf]
  | cons c t ih =>
    intro a b y h
    simp only [splitOnce] at h
    split_ifs at h with hp
    · cases h
      obtain ⟨r, hr⟩ := List.isPrefixOf_iff_prefix.mp hp
      have hp2 : sep.isPrefixOf (c :: (t ++ y)) = true := by
        rw [List.isPrefixOf_iff_prefix]
        have := (List.isPrefixOf_iff_prefix.mp hp).trans (List.prefix_append (c :: t) y)
        simpa using this
      show splitOnce sep (c :: (t ++ y)) = _
      rw [splitOnce_of_isPrefix hp2]
      have hlen : sep.length ≤ (c :: t).length := by
        rw [← hr]
        simp
      have hca : c :: (t ++ y) = (c :: t) ++ y := by simp
      rw [hca, List.drop_append_eq_append_drop, Nat.sub_eq_zero_of_le hlen, List.drop_zero]
    · cases hm : splitOnce sep t with
      | none => rw [hm] at h; simp at h
      | some p =>
        rw [hm] at h
        simp only [Option.map_some', Option.some.injEq] at h
        obtain ⟨ha, hb⟩ := Prod.mk.injEq .. ▸ h
        subst ha hb
        have hlen : sep.length ≤ t.length := by
          have h5 := congrArg List.length (splitOnce_eq_append hm)
          simp at h5
          omega
        have hp2 : ¬ sep.isPrefixOf (c :: (t ++ y)) = true := by
          intro hpp
          apply hp
          rw [List.isPrefixOf_iff_prefix] at hpp ⊢
          have h4 : sep = List.take sep.length (c :: (t ++ y)) :=
            List.prefix_iff_eq_take.mp hpp
          have hca : c :: (t ++ y) = (c :: t) ++ y := by simp
          rw [hca, List.take_append_eq_append_take,
            Nat.sub_eq_zero_of_le (by simpa using Nat.le_succ_of_le hlen), List.take_zero,
            List.append_nil] at h4
          rw [h4]
          exact List.take_prefix _ _
        show splitOnce sep (c :: (t ++ y)) = _
        simp only [splitOnce]
        rw [if_neg hp2, ih y hm]
        rfl

theorem splitOnce_append_right {sep : Str} (_hsep : sep ≠ []) : ∀ (x y : Str),
    ¬ sep <:+: x →
    (∀ k, 0 < k → k < sep.length → ¬ (sep.take k <:+ x ∧ sep.drop k <+: y)) →
    splitOnce sep (x ++ y) = (splitOnce sep y).map fun p => (x ++ p.1, p.2) := by
  intro x
  induction x with
  | nil =>
    intro y _ _
    rw [List.nil_append]
    cases splitOnce sep y <;> simp
  | cons c t ih =>
    intro y hx hstrad
    have hnp : ¬ sep.isPrefixOf (c :: (t ++ y)) = true := by
      intro hp
      have hpre := List.isPrefixOf_iff_prefix.mp hp
      have hpre' : sep <+: (c :: t) ++ y := by simpa using hpre
      by_cases hlen : sep.length ≤ (c :: t).length
      · have h4 : sep = List.take sep.length ((c :: t) ++ y) :=
          List.prefix_iff_eq_take.mp hpre'
        rw [List.take_append_eq_append_take, Nat.sub_eq_zero_of_le hlen,
          List.take_zero, List.append_nil] at h4
        have hsp : sep <+: c :: t := by
          rw [h4]
          exact List.take_prefix _ _
        exact hx hsp.isInfix
      · push_neg at hlen
        obtain ⟨r, hr⟩ := hpre'
        apply hstrad (c :: t).length (by simp) hlen
        constructor
        · have h2 : (c :: t) ++ y = sep ++ r := hr.symm
          have h3 := congrArg (List.take (c :: t).length) h2
          rw [List.take_left, List.take_append_eq_append_take,
            Nat.sub_eq_zero_of_le (Nat.le_of_lt hlen), List.take_zero,
            List.append_nil] at h3
          rw [← h3]
        · have h2 : (c :: t) ++ y = sep ++ r := hr.symm
          have h3 := congrArg (List.drop (c :: t).length) h2
          rw [List.drop_left, List.drop_append_eq_append_drop,
            Nat.sub_eq_zero_of_le (Nat.le_of_lt hlen), List.drop_zero] at h3
          exact ⟨r, h3.symm⟩
    have hx' : ¬ sep <:+: t := fun h => hx (List.infix_cons h)
    have hstrad' : ∀ k, 0 < k → k < sep.length → ¬ (sep.take k <:+ t ∧ sep.drop k <+: y) := by
      intro k hk hkl ⟨h1, h2⟩
      exact hstrad k hk hkl ⟨h1.trans (List.suffix_cons c t), h2⟩
    show splitOnce sep (c :: (t ++ y)) = _
    simp only [splitOnce]
    rw [if_neg hnp, ih y hx' hstrad']
    cases splitOnce sep y <;> simp

theorem splitOnce_append_right_nl {sep : Str} (hsep : sep ≠ []) (hnl : '\n' ∉ sep)
    (x : Str) (y' : Str) (hx : ¬ sep <:+: x) :
    splitOnce sep (x ++ '\n' :: y')
      = (splitOnce sep ('\n' :: y')).map fun p => (x ++ p.1, p.2) := by
  apply splitOnce_append_right hsep x _ hx
  intro k hk hkl ⟨_, h2⟩
  have hd : sep.drop k ≠ [] := by
    rw [Ne, List.drop_eq_nil_iff]
    omega
  cases hdd : sep.drop k with
  | nil => exact hd hdd
  | cons d ds =>
    rw [hdd] at h2
    have hdn : d = '\n' := (List.cons_prefix_cons.mp h2).1
    apply hnl
    have : d ∈ sep.drop k := by rw [hdd]; exact List.mem_cons_self _ _
    exact hdn ▸ List.mem_of_mem_drop this

theorem splitOnce_cons_ne {d c : Char} {sep' : Str} (h : d ≠ c) (l : Str) :
    splitOnce (d :: sep') (c :: l)
      = (splitOnce (d :: sep') l).map fun p => (c :: p.1, p.2) := by
  simp only [splitOnce]
  rw [if_neg]
  intro hp
  rw [List.isPrefixOf_iff_prefix] at hp
  exact h (List.cons_prefix_cons.mp hp).1

theorem splitOnce_isSome_iff {sep : Str} (hsep : sep ≠ []) : ∀ {l : Str},
    (splitOnce sep l).isSome = true ↔ sep <:+: l := by
  intro l
  induction l with
  | nil =>
    simp only [splitOnce, if_neg hsep, List.infix_nil]
    simp [hsep]
  | cons c t ih =>
    simp only [splitOnce]
    split_ifs with hp
    · simp only [Option.isSome_some, true_iff]
      exact (List.isPrefixOf_iff_prefix.mp hp).isInfix
    · rw [List.infix_cons_iff]
      have h1 : ¬ sep <+: c :: t := fun h => hp (List.isPrefixOf_iff_prefix.mpr h)
      cases hm : splitOnce sep t with
      | none =>
        simp only [Option.map_none', Option.isSome_none]
        rw [hm] at ih
        simp only [Option.isSome_none, Bool.false_eq_true, false_iff] at ih
        simp [h1, ih]
      | some p =>
        simp only [Option.map_some', Option.isSome_some, true_iff]
        rw [hm] at ih
        simp only [Option.isSome_some, true_iff] at ih
        exact Or.inr ih

theorem splitOnce_none_iff {sep : Str} (hsep : sep ≠ []) {l : Str} :
    splitOnce sep l = none ↔ ¬ sep <:+: l := by
  rw [← splitOnce_isSome_iff hsep]
  cases splitOnce sep l <;> simp

theorem lstrip_suffix (l : Str) : lstrip l <:+ l := by
  induction l with
  | nil => simp [lstrip]
  | cons c t ih =>
    by_cases h : pyWs c
    · simp only [lstrip, if_pos h]
      exact ih.trans (List.suffix_cons c t)
    · simp only [lstrip, if_neg h]
      exact List.suffix_refl _

theorem rstrip_isPrefix (l : Str) : rstrip l <+: l := by
  induction l with
  | nil => simp [rstrip]
  | cons c t ih =>
    rw [rstrip_cons]
    by_cases h : rstrip t = []
    · rw [if_pos h]
      by_cases hc : pyWs c
      · simp [hc]
      · simp [hc, List.cons_prefix_cons]
    · rw [if_neg h]
      exact List.cons_prefix_cons.mpr ⟨rfl, ih⟩

theorem pyStrip_isInfix (l : Str) : pyStrip l <:+: l :=
  (lstrip_suffix (rstrip l)).isInfix.trans (rstrip_isPrefix l).isInfix

/-! ### Marker and section structure lemmas -/

theorem startMarker_cons (key : Str) :
    startMarker key = '<' :: ("!-- ".data ++ key ++ ":start -->".data) := rfl

theorem endMarker_cons (key : Str) :
    endMarker key = '<' :: ("!-- ".data ++ key ++ ":end -->".data) := rfl

theorem startMarker_ne_nil (key : Str) : startMarker key ≠ [] := by
  rw [startMarker_cons]
  exact List.cons_ne_nil _ _

theorem endMarker_ne_nil (key : Str) : endMarker key ≠ [] := by
  rw [endMarker_cons]
  exact List.cons_ne_nil _ _

theorem newline_not_mem_startMarker {key : Str} (hk : '\n' ∉ key) :
    '\n' ∉ startMarker key := by
  intro h
  rcases List.mem_append.mp h with h | h
  · rcases List.mem_append.mp h with h | h
    · exact absurd h (by decide)
    · exact hk h
  · exact absurd h (by decide)

theorem newline_not_mem_endMarker {key : Str} (hk : '\n' ∉ key) :
    '\n' ∉ endMarker key := by
  intro h
  rcases List.mem_append.mp h with h | h
  · rcases List.mem_append.mp h with h | h
    · exact absurd h (by decide)
    · exact hk h
  · exact absurd h (by decide)

theorem lstrip_eq_self_head {l : Str} {c : Char} (h : l.head? = some c)
    (hc : pyWs c = false) : lstrip l = l := by
  cases l with
  | nil => simp at h
  | cons d t =>
    simp only [List.head?_cons, Option.some.injEq] at h
    subst h
    exact lstrip_cons_nonws hc

theorem rstrip_eq_self_getLast : ∀ {l : Str} {c : Char}, l.getLast? = some c →
    pyWs c = false → rstrip l = l := by
  intro l
  induction l with
  | nil => intro c h _; simp at h
  | cons d t ih =>
    intro c h hc
    cases t with
    | nil =>
      simp only [List.getLast?_singleton, Option.some.injEq] at h
      subst h
      simp [rstrip_singleton, hc]
    | cons e t' =>
      have h2 : (e :: t').getLast? = some c := by
        rw [← h]
        rfl
      have h3 : rstrip (e :: t') = e :: t' := ih h2 hc
      rw [rstrip_cons, h3, if_neg (List.cons_ne_nil _ _)]

theorem render_head (key : Str) (nums : List Nat) (i : Nat) :
    (render_stack_section key nums i).head? = some '<' := rfl

theorem endMarker_getLast (key : Str) : (endMarker key).getLast? = some '>' := by
  have h1 : endMarker key = ("<!-- ".data ++ key) ++ ":end -->".data := rfl
  rw [h1, List.getLast?_append]
  rfl

theorem render_getLast (key : Str) (nums : List Nat) (i : Nat) :
    (render_stack_section key nums i).getLast? = some '>' := by
  have h1 : render_stack_section key nums i
      = (startMarker key ++
          ('\n' :: List.intercalate ['\n'] (nums.enum.map fun p => stackLine (p.1 = i) p.2)))
        ++ ('\n' :: endMarker key) := rfl
  rw [h1, List.getLast?_append]
  have h2 : ('\n' :: endMarker key).getLast? = some '>' := by
    have h3 : '\n' :: endMarker key = ['\n'] ++ endMarker key := rfl
    rw [h3, List.getLast?_append, endMarker_getLast]
    rfl
  rw [h2]
  rfl

theorem render_ne_nil (key : Str) (nums : List Nat) (i : Nat) :
    render_stack_section key nums i ≠ [] := by
  intro h
  have h2 := render_head key nums i
  rw [h] at h2
  simp at h2

theorem render_lstrip (key : Str) (nums : List Nat) (i : Nat) :
    lstrip (render_stack_section key nums i) = render_stack_section key nums i :=
  lstrip_eq_self_head (render_head key nums i) (by decide)

theorem render_rstrip (key : Str) (nums : List Nat) (i : Nat) :
    rstrip (render_stack_section key nums i) = render_stack_section key nums i :=
  rstrip_eq_self_getLast (render_getLast key nums i) (by decide)

theorem render_startMarker_isPrefix (key : Str) (nums : List Nat) (i : Nat) :
    (startMarker key).isPrefixOf (render_stack_section key nums i) = true := by
  rw [List.isPrefixOf_iff_prefix]
  have h1 : render_stack_section key nums i
      = startMarker key ++
          (('\n' :: List.intercalate ['\n'] (nums.enum.map fun p => stackLine (p.1 = i) p.2))
            ++ ('\n' :: endMarker key)) := by
    simp [render_stack_section]
  rw [h1]
  exact List.prefix_append _ _

/-! ### The upsert replace path -/

theorem nl2_ne_nil_append (x : Str) : x ++ nl2 ≠ [] := by
  simp [nl2]

/-- The replace branch of `upsert_marker_section` in closed form: the text
before the first start marker and after the first end marker is kept, each
side stripped of surrounding whitespace, rejoined around the new section
with one blank line on each (non-empty) side. -/
theorem upsert_replace_eq (body marker_key S pre rest q post : Str)
    (hs : splitOnce (startMarker marker_key) body = some (pre, rest))
    (he : splitOnce (endMarker marker_key) body = some (q, post))
    (hS0 : S ≠ []) (hSl : lstrip S = S) (hSr : rstrip S = S) :
    upsert_marker_section body marker_key S
      = (if pyStrip pre = [] then [] else pyStrip pre ++ nl2) ++ S
        ++ (if pyStrip post = [] then [] else nl2 ++ pyStrip post) := by
  have hlnl2 : lstrip nl2 = [] := by decide
  have hql : lstrip post = [] ↔ pyStrip post = [] := by
    rw [lstrip_eq_nil_iff, pyStrip_eq_nil_iff]
  have hqr : rstrip (lstrip post) = pyStrip post := (lstrip_rstrip_comm post).symm
  have hpre_fold : lstrip (rstrip pre) = pyStrip pre := rfl
  simp only [upsert_marker_section, hs, he]
  by_cases hq : pyStrip post = []
  · rw [if_pos (hql.mpr hq), if_pos hq, List.append_nil, List.append_nil, pyStrip]
    rw [rstrip_append, hSr, if_neg hS0]
    rw [lstrip_append]
    by_cases hp : pyStrip pre = []
    · have hp2 : lstrip (rstrip pre ++ nl2) = [] := by
        rw [lstrip_append, hpre_fold, hp, if_pos rfl, hlnl2]
      rw [if_pos hp2, hSl, if_pos hp, List.nil_append]
    · have hp2 : lstrip (rstrip pre ++ nl2) = pyStrip pre ++ nl2 := by
        rw [lstrip_append, hpre_fold, if_neg hp]
      rw [hp2, if_neg (nl2_ne_nil_append _), if_neg hp]
  · have hq2 : lstrip post ≠ [] := fun h => hq (hql.mp h)
    rw [if_neg hq2, if_neg hq, pyStrip]
    rw [rstrip_append, rstrip_append, hqr, if_neg hq]
    have hne : nl2 ++ pyStrip post ≠ [] := by simp [nl2]
    rw [if_neg hne]
    rw [lstrip_append]
    by_cases hp : pyStrip pre = []
    · have hp2 : lstrip ((rstrip pre ++ nl2) ++ S) = S := by
        rw [lstrip_append, lstrip_append, hpre_fold, hp, if_pos rfl, hlnl2, if_pos rfl, hSl]
      rw [hp2, if_neg hS0, if_pos hp, List.nil_append]
    · have hp2 : lstrip ((rstrip pre ++ nl2) ++ S) = (pyStrip pre ++ nl2) ++ S := by
        rw [lstrip_append, lstrip_append, hpre_fold, if_neg hp,
          if_neg (nl2_ne_nil_append _)]
      have hp4 : lstrip ((rstrip pre ++ nl2) ++ S) ≠ [] := by
        rw [hp2]
        simp [nl2]
      rw [if_neg hp4, hp2, if_neg hp]

theorem pyStrip_idem (l : Str) : pyStrip (pyStrip l) = pyStrip l := by
  conv_lhs => rw [pyStrip, rstrip_pyStrip, lstrip_pyStrip]

theorem pyStrip_append_nl2 {P : Str} (hr : rstrip P = P) (hl : lstrip P = P) :
    pyStrip (P ++ nl2) = P := by
  rw [pyStrip, rstrip_append]
  have h1 : rstrip nl2 = [] := by decide
  rw [h1, if_pos rfl, hr, hl]

theorem pyStrip_nl2_append {W : Str} (hW : pyStrip W = W) :
    pyStrip (nl2 ++ W) = W := by
  have hr : rstrip W = W := by conv_lhs => rw [← hW, rstrip_pyStrip, hW]
  have hl : lstrip W = W := by conv_lhs => rw [← hW, lstrip_pyStrip, hW]
  by_cases h0 : W = []
  · subst h0
    rw [List.append_nil]
    decide
  · rw [pyStrip, rstrip_append, hr, if_neg h0, lstrip_append]
    have h1 : lstrip nl2 = [] := by decide
    rw [h1, if_pos rfl, hl]

theorem splitOnce_lt_nl2 (sep' : Str) (l : Str) :
    splitOnce ('<' :: sep') (nl2 ++ l)
      = (splitOnce ('<' :: sep') l).map fun p => (nl2 ++ p.1, p.2) := by
  show splitOnce ('<' :: sep') ('\n' :: ('\n' :: l)) = _
  rw [splitOnce_cons_ne (by decide), splitOnce_cons_ne (by decide)]
  cases splitOnce ('<' :: sep') l <;> simp [nl2]

theorem splitOnce_strip_block {sep' : Str} (x l : Str)
    (hx : ¬ ('<' :: sep') <:+: x) (hnl : '\n' ∉ ('<' :: sep')) :
    splitOnce ('<' :: sep') ((x ++ nl2) ++ l)
      = (splitOnce ('<' :: sep') l).map fun p => ((x ++ nl2) ++ p.1, p.2) := by
  have hassoc : (x ++ nl2) ++ l = x ++ ('\n' :: ('\n' :: l)) := by
    rw [List.append_assoc]
    rfl
  rw [hassoc,
    splitOnce_append_right_nl (List.cons_ne_nil _ _) hnl x ('\n' :: l) hx,
    splitOnce_cons_ne (by decide), splitOnce_cons_ne (by decide)]
  cases splitOnce ('<' :: sep') l <;> simp [nl2]

/-- C5 counterexample: whitespace adjacent to the marker pair is trimmed by
`upsert_marker_section`, so the text strictly outside the pair is not
byte-identical after the merge. -/
theorem upsert_outside_trimmed_counterexample :
    upsert_marker_section "A \n<!-- k:start -->x<!-- k:end -->\nB".data "k".data
        "<!-- k:start -->\nfresh\n<!-- k:end -->".data
      ≠ "A \n".data ++ "<!-- k:start -->\nfresh\n<!-- k:end -->".data ++ "\nB".data := by
  decide

/-- C5 (amended): for a body containing both markers, `upsert` keeps the
text before the first start marker and after the first end marker, each side
trimmed of surrounding whitespace and rejoined with exactly one blank line
around the new section — byte-identical up to that edge trimming. -/
theorem upsert_preserves_outside_text (body marker_key S pre rest q post : Str)
    (hs : splitOnce (startMarker marker_key) body = some (pre, rest))
    (he : splitOnce (endMarker marker_key) body = some (q, post))
    (hS0 : S ≠ []) (hSl : lstrip S = S) (hSr : rstrip S = S) :
    upsert_marker_section body marker_key S
      = (if pyStrip pre = [] then [] else pyStrip pre ++ nl2) ++ S
        ++ (if pyStrip post = [] then [] else nl2 ++ pyStrip post) :=
  upsert_replace_eq body marker_key S pre rest q post hs he hS0 hSl hSr

/-- C5 witness: merging a fresh section into a body with a stale
well-formed marker pair keeps the trimmed outside text. -/
theorem upsert_preserves_outside_text_witness :
    upsert_marker_section "Fixes #12\n<!-- k:start -->\nstale\n<!-- k:end -->\nThanks".data
        "k".data "<!-- k:start -->\nfresh\n<!-- k:end -->".data
      = (if pyStrip "Fixes #12\n".data = [] then []
          else pyStrip "Fixes #12\n".data ++ nl2)
        ++ "<!-- k:start -->\nfresh\n<!-- k:end -->".data
        ++ (if pyStrip "\nThanks".data = [] then []
            else nl2 ++ pyStrip "\nThanks".data) :=
  upsert_preserves_outside_text
    "Fixes #12\n<!-- k:start -->\nstale\n<!-- k:end -->\nThanks".data
    "k".data "<!-- k:start -->\nfresh\n<!-- k:end -->".data
    "Fixes #12\n".data "\nstale\n<!-- k:end -->\nThanks".data
    "Fixes #12\n<!-- k:start -->\nstale\n".data "\nThanks".data
    (by decide) (by decide) (by decide) (by decide) (by decide)

/-- C4 counterexample: when the end marker occurs before the start marker,
both markers are present, so the code takes the replace branch and produces
a corrupt merge instead of treating the section as absent and prepending. -/
theorem upsert_end_before_start_counterexample :
    upsert_marker_section "<!-- k:end -->X<!-- k:start -->".data "k".data "NEW".data
      = "<!-- k:end -->X\n\nNEW\n\nX<!-- k:start -->".data ∧
    upsert_marker_section "<!-- k:end -->X<!-- k:start -->".data "k".data "NEW".data
      ≠ "NEW".data ++ nl2 ++ pyStrip "<!-- k:end -->X<!-- k:start -->".data := by
  refine ⟨by decide, by decide⟩

/-- The prepend branch of `upsert_marker_section` in closed form. -/
theorem upsert_prepend_eq (body marker_key S : Str)
    (h : splitOnce (startMarker marker_key) body = none
      ∨ splitOnce (endMarker marker_key) body = none)
    (hS0 : S ≠ []) (hSl : lstrip S = S) :
    upsert_marker_section body marker_key S
      = if pyStrip body = [] then S else (S ++ nl2) ++ pyStrip body := by
  have hglue : pyStrip body ≠ [] →
      pyStrip ((S ++ nl2) ++ pyStrip body) = (S ++ nl2) ++ pyStrip body := by
    intro hb
    rw [pyStrip, rstrip_append, rstrip_pyStrip, if_neg hb, lstrip_append]
    have h1 : lstrip (S ++ nl2) = S ++ nl2 := by
      rw [lstrip_append, hSl, if_neg hS0]
    rw [h1, if_neg (nl2_ne_nil_append _)]
  rcases h with h | h
  · simp only [upsert_marker_section, h]
    by_cases hb : pyStrip body = []
    · rw [if_pos hb, if_pos hb]
    · rw [if_neg hb, if_neg hb, hglue hb]
  · cases hx : splitOnce (startMarker marker_key) body with
    | none =>
      simp only [upsert_marker_section, hx]
      by_cases hb : pyStrip body = []
      · rw [if_pos hb, if_pos hb]
      · rw [if_neg hb, if_neg hb, hglue hb]
    | some p =>
      simp only [upsert_marker_section, hx, h]
      by_cases hb : pyStrip body = []
      · rw [if_pos hb, if_pos hb]
      · rw [if_neg hb, if_neg hb, hglue hb]

/-- C4 (amended): `upsert` treats the section as absent exactly when the
start marker or the end marker is missing from the body (not when the end
marker merely precedes the start marker): it then prepends the new section,
with the stripped existing content following after one blank line, and
returns exactly the new section for an empty or whitespace-only body. -/
theorem upsert_missing_marker_prepends (body marker_key S : Str)
    (h : splitOnce (startMarker marker_key) body = none
      ∨ splitOnce (endMarker marker_key) body = none)
    (hS0 : S ≠ []) (hSl : lstrip S = S) :
    upsert_marker_section body marker_key S
      = if pyStrip body = [] then S else (S ++ nl2) ++ pyStrip body :=
  upsert_prepend_eq body marker_key S h hS0 hSl

/-- C4 witness: a body with no markers is prepended to; a whitespace-only
body is replaced outright. -/
theorem upsert_missing_marker_prepends_witness :
    (upsert_marker_section "Fixes #12".data "k".data "NEW".data
      = if pyStrip "Fixes #12".data = [] then "NEW".data
        else ("NEW".data ++ nl2) ++ pyStrip "Fixes #12".data) ∧
    (upsert_marker_section "  ".data "k".data "NEW".data
      = if pyStrip "  ".data = [] then "NEW".data
        else ("NEW".data ++ nl2) ++ pyStrip "  ".data) :=
  ⟨upsert_missing_marker_prepends "Fixes #12".data "k".data "NEW".data
      (Or.inl (by decide)) (by decide) (by decide),
   upsert_missing_marker_prepends "  ".data "k".data "NEW".data
      (Or.inl (by decide)) (by decide) (by decide)⟩

/-! ### Idempotence of the merge -/

theorem render_prefix_ext (key : Str) (nums : List Nat) (i : Nat) (X : Str) :
    (startMarker key).isPrefixOf (render_stack_section key nums i ++ X) = true := by
  rw [List.isPrefixOf_iff_prefix]
  exact (List.isPrefixOf_iff_prefix.mp (render_startMarker_isPrefix key nums i)).trans
    (List.prefix_append _ _)

theorem splitOnce_startMarker_block {key : Str} (x l : Str) (hk : '\n' ∉ key)
    (hx : ¬ startMarker key <:+: x) :
    splitOnce (startMarker key) ((x ++ nl2) ++ l)
      = (splitOnce (startMarker key) l).map fun p => ((x ++ nl2) ++ p.1, p.2) := by
  have hnl : '\n' ∉ startMarker key := newline_not_mem_startMarker hk
  rw [startMarker_cons] at hx hnl ⊢
  exact splitOnce_strip_block x l hx hnl

theorem splitOnce_endMarker_block {key : Str} (x l : Str) (hk : '\n' ∉ key)
    (hx : ¬ endMarker key <:+: x) :
    splitOnce (endMarker key) ((x ++ nl2) ++ l)
      = (splitOnce (endMarker key) l).map fun p => ((x ++ nl2) ++ p.1, p.2) := by
  have hnl : '\n' ∉ endMarker key := newline_not_mem_endMarker hk
  rw [endMarker_cons] at hx hnl ⊢
  exact splitOnce_strip_block x l hx hnl

theorem upsert_S_append_tail (key : Str) (nums : List Nat) (i : Nat) (u T : Str)
    (hu : splitOnce (endMarker key) (render_stack_section key nums i) = some (u, []))
    (hT : T = [] ∨ ∃ W, T = nl2 ++ W ∧ pyStrip W = W ∧ W ≠ []) :
    upsert_marker_section (render_stack_section key nums i ++ T) key
        (render_stack_section key nums i)
      = render_stack_section key nums i ++ T := by
  have hS0 := render_ne_nil key nums i
  have hSl := render_lstrip key nums i
  have hSr := render_rstrip key nums i
  have hs1 : splitOnce (startMarker key) (render_stack_section key nums i ++ T)
      = some ([], (render_stack_section key nums i ++ T).drop (startMarker key).length) :=
    splitOnce_of_isPrefix (render_prefix_ext key nums i T)
  have he1 : splitOnce (endMarker key) (render_stack_section key nums i ++ T)
      = some (u, [] ++ T) := splitOnce_append_left T hu
  rw [upsert_replace_eq _ key _ [] _ u ([] ++ T) hs1 he1 hS0 hSl hSr]
  have hPnil : pyStrip ([] : Str) = [] := by decide
  rcases hT with rfl | ⟨W, rfl, hW, hW0⟩
  · simp [hPnil]
  · have hq : pyStrip ([] ++ (nl2 ++ W)) = W := by
      rw [List.nil_append]
      exact pyStrip_nl2_append hW
    rw [hPnil, if_pos rfl, hq, if_neg hW0, List.nil_append]

theorem upsert_prepend_idem (body key : Str) (nums : List Nat) (i : Nat) (u : Str)
    (hu : splitOnce (endMarker key) (render_stack_section key nums i) = some (u, []))
    (hOr : splitOnce (startMarker key) body = none
      ∨ splitOnce (endMarker key) body = none) :
    upsert_marker_section
        (upsert_marker_section body key (render_stack_section key nums i)) key
        (render_stack_section key nums i)
      = upsert_marker_section body key (render_stack_section key nums i) := by
  have hS0 := render_ne_nil key nums i
  have hSl := render_lstrip key nums i
  rw [upsert_prepend_eq body key _ hOr hS0 hSl]
  by_cases hb : pyStrip body = []
  · rw [if_pos hb]
    have h := upsert_S_append_tail key nums i u [] hu (Or.inl rfl)
    simpa using h
  · rw [if_neg hb]
    have hW : pyStrip (pyStrip body) = pyStrip body := pyStrip_idem body
    have h := upsert_S_append_tail key nums i u (nl2 ++ pyStrip body) hu
      (Or.inr ⟨pyStrip body, rfl, hW, hb⟩)
    rw [← List.append_assoc] at h
    exact h

/-- C1 counterexample: on a body whose end marker precedes its start marker,
merging the rendered section twice does not equal merging it once — content
is duplicated by the second application. -/
theorem upsert_render_not_idempotent_counterexample :
    upsert_marker_section
        (upsert_marker_section "<!-- k:end -->X<!-- k:start -->".data "k".data
          (render_stack_section "k".data [1] 0))
        "k".data (render_stack_section "k".data [1] 0)
      ≠ upsert_marker_section "<!-- k:end -->X<!-- k:start -->".data "k".data
          (render_stack_section "k".data [1] 0) := by
  decide

/-- C1 (amended): `upsert` with a rendered section for the same marker key
is idempotent for every body in which the end marker does not occur before
the first start marker (the failing case is the counterexample), for any
newline-free marker key whose end marker first occurs in the rendered
section at its closing position. -/
theorem upsert_render_idempotent (body key : Str) (nums : List Nat) (i : Nat)
    (hkey : '\n' ∉ key)
    (hE : ∃ u, splitOnce (endMarker key) (render_stack_section key nums i)
      = some (u, []))
    (hOrd : ∀ pre rest, splitOnce (startMarker key) body = some (pre, rest) →
      splitOnce (endMarker key) pre = none) :
    upsert_marker_section
        (upsert_marker_section body key (render_stack_section key nums i)) key
        (render_stack_section key nums i)
      = upsert_marker_section body key (render_stack_section key nums i) := by
  obtain ⟨u, hu⟩ := hE
  have hS0 := render_ne_nil key nums i
  have hSl := render_lstrip key nums i
  have hSr := render_rstrip key nums i
  cases hsb : splitOnce (startMarker key) body with
  | none => exact upsert_prepend_idem body key nums i u hu (Or.inl hsb)
  | some p =>
    cases heb : splitOnce (endMarker key) body with
    | none => exact upsert_prepend_idem body key nums i u hu (Or.inr heb)
    | some q2 =>
      obtain ⟨pre, rest⟩ := p
      obtain ⟨q, post⟩ := q2
      have h1 := upsert_replace_eq body key _ pre rest q post hsb heb hS0 hSl hSr
      have hsP : ¬ startMarker key <:+: pyStrip pre := fun hinf =>
        splitOnce_not_infix_pre (startMarker_ne_nil key) hsb
          (hinf.trans (pyStrip_isInfix pre))
      have heP : ¬ endMarker key <:+: pyStrip pre := fun hinf =>
        (splitOnce_none_iff (endMarker_ne_nil key)).mp (hOrd pre rest hsb)
          (hinf.trans (pyStrip_isInfix pre))
      have hWq : pyStrip (pyStrip post) = pyStrip post := pyStrip_idem post
      have hPr : rstrip (pyStrip pre) = pyStrip pre := rstrip_pyStrip pre
      have hPl : lstrip (pyStrip pre) = pyStrip pre := lstrip_pyStrip pre
      by_cases hp : pyStrip pre = [] <;> by_cases hq : pyStrip post = []
      · rw [h1, if_pos hp, if_pos hq, List.nil_append, List.append_nil]
        have h := upsert_S_append_tail key nums i u [] hu (Or.inl rfl)
        simpa using h
      · rw [h1, if_pos hp, if_neg hq, List.nil_append]
        exact upsert_S_append_tail key nums i u (nl2 ++ pyStrip post) hu
          (Or.inr ⟨pyStrip post, rfl, hWq, hq⟩)
      · rw [h1, if_neg hp, if_pos hq, List.append_nil]
        have hs2 : splitOnce (startMarker key)
            ((pyStrip pre ++ nl2) ++ render_stack_section key nums i)
            = some ((pyStrip pre ++ nl2) ++ [],
                (render_stack_section key nums i).drop (startMarker key).length) := by
          rw [splitOnce_startMarker_block _ _ hkey hsP,
            splitOnce_of_isPrefix (render_startMarker_isPrefix key nums i)]
          rfl
        have he2 : splitOnce (endMarker key)
            ((pyStrip pre ++ nl2) ++ render_stack_section key nums i)
            = some ((pyStrip pre ++ nl2) ++ u, []) := by
          rw [splitOnce_endMarker_block _ _ hkey heP, hu]
          rfl
        rw [List.append_nil] at hs2
        rw [upsert_replace_eq _ key _ _ _ _ _ hs2 he2 hS0 hSl hSr]
        have hPP : pyStrip (pyStrip pre ++ nl2) = pyStrip pre :=
          pyStrip_append_nl2 hPr hPl
        rw [hPP, if_neg hp]
        have hPnil : pyStrip ([] : Str) = [] := by decide
        rw [hPnil, if_pos rfl, List.append_nil]
      · rw [h1, if_neg hp, if_neg hq]
        have hassoc : ((pyStrip pre ++ nl2) ++ render_stack_section key nums i)
              ++ (nl2 ++ pyStrip post)
            = (pyStrip pre ++ nl2)
              ++ (render_stack_section key nums i ++ (nl2 ++ pyStrip post)) := by
          rw [List.append_assoc]
        rw [hassoc]
        have hs2 : splitOnce (startMarker key)
            ((pyStrip pre ++ nl2)
              ++ (render_stack_section key nums i ++ (nl2 ++ pyStrip post)))
            = some ((pyStrip pre ++ nl2) ++ [],
                (render_stack_section key nums i ++ (nl2 ++ pyStrip post)).drop
                  (startMarker key).length) := by
          rw [splitOnce_startMarker_block _ _ hkey hsP,
            splitOnce_of_isPrefix (render_prefix_ext key nums i _)]
          rfl
        have he2 : splitOnce (endMarker key)
            ((pyStrip pre ++ nl2)
              ++ (render_stack_section key nums i ++ (nl2 ++ pyStrip post)))
            = some ((pyStrip pre ++ nl2) ++ u, [] ++ (nl2 ++ pyStrip post)) := by
          rw [splitOnce_endMarker_block _ _ hkey heP,
            splitOnce_append_left _ hu]
          rfl
        rw [List.append_nil] at hs2
        rw [List.nil_append] at he2
        rw [upsert_replace_eq _ key _ _ _ _ _ hs2 he2 hS0 hSl hSr]
        have hPP : pyStrip (pyStrip pre ++ nl2) = pyStrip pre :=
          pyStrip_append_nl2 hPr hPl
        have hQQ : pyStrip (nl2 ++ pyStrip post) = pyStrip post :=
          pyStrip_nl2_append hWq
        rw [hPP, if_neg hp, hQQ, if_neg hq, List.append_assoc]

/-- C1 witness: merging the rendered one-entry section twice into a body
with a well-formed stale section equals merging it once. -/
theorem upsert_render_idempotent_witness :
    upsert_marker_section
        (upsert_marker_section
          "Fixes #12\n<!-- k:start -->\nstale\n<!-- k:end -->\nThanks".data "k".data
          (render_stack_section "k".data [1] 0))
        "k".data (render_stack_section "k".data [1] 0)
      = upsert_marker_section
          "Fixes #12\n<!-- k:start -->\nstale\n<!-- k:end -->\nThanks".data "k".data
          (render_stack_section "k".data [1] 0) :=
  upsert_render_idempotent
    "Fixes #12\n<!-- k:start -->\nstale\n<!-- k:end -->\nThanks".data "k".data [1] 0
    (by decide)
    ⟨"<!-- k:start -->\n- 👉 #1\n".data, by decide⟩
    (by
      intro pre rest h
      rw [show splitOnce (startMarker "k".data)
            "Fixes #12\n<!-- k:start -->\nstale\n<!-- k:end -->\nThanks".data
          = some ("Fixes #12\n".data, "\nstale\n<!-- k:end -->\nThanks".data) from by decide]
        at h
      cases h
      decide)

/-! ### The branch lister -/

/-- C9 counterexample: the branch lister does not deduplicate — a templated
output naming the same bookmark twice yields a duplicated list (the orderer
deduplicates later). -/
theorem list_branches_duplicates_counterexample :
    (list_branches (some "a\na".data) []).map BranchInfo.name = ["a".data, "a".data] ∧
    ¬ ((list_branches (some "a\na".data) []).map BranchInfo.name).Nodup := by
  refine ⟨by decide, by decide⟩

/-- C9 (amended): the branch lister returns the per-line sanitized names in
first-to-last line order — empty lines dropped, remote-marker (`@`) entries
dropped, one trailing `:` stripped, and (in the plain-text fallback, used
when the templated query yields nothing) only the first whitespace-separated
token of each line — without collapsing duplicates. -/
theorem list_branches_sanitized (tout pout : Str) :
    (list_branches (some tout) pout).map BranchInfo.name
      = if (pySplitlines (pyStrip tout)).filterMap sanitize_branch_name = []
        then (pySplitlines (pyStrip pout)).filterMap (fun line =>
          if pyStrip line = [] then none
          else match pySplitWs (pyStrip line) with
            | [] => none
            | tok :: _ => sanitize_branch_name tok)
        else (pySplitlines (pyStrip tout)).filterMap sanitize_branch_name := by
  have hmap : ∀ (L : List Str),
      (L.filterMap fun line => (sanitize_branch_name line).map fun n =>
        (⟨n, []⟩ : BranchInfo)).map BranchInfo.name
        = L.filterMap sanitize_branch_name := by
    intro L
    rw [List.map_filterMap]
    apply List.filterMap_congr
    intro line _
    cases sanitize_branch_name line <;> simp
  have hmap2 :
      ((pySplitlines (pyStrip pout)).filterMap fun line =>
        if pyStrip line = [] then none
        else match pySplitWs (pyStrip line) with
          | [] => none
          | tok :: _ => (sanitize_branch_name tok).map fun n =>
              (⟨n, []⟩ : BranchInfo)).map BranchInfo.name
      = (pySplitlines (pyStrip pout)).filterMap (fun line =>
          if pyStrip line = [] then none
          else match pySplitWs (pyStrip line) with
            | [] => none
            | tok :: _ => sanitize_branch_name tok) := by
    rw [List.map_filterMap]
    apply List.filterMap_congr
    intro line _
    by_cases hb : pyStrip line = []
    · simp [hb]
    · simp only [if_neg hb]
      cases pySplitWs (pyStrip line) with
      | nil => simp
      | cons tok toks =>
        cases hs : sanitize_branch_name tok <;> simp [hs]
  simp only [list_branches]
  split
  · rename_i h
    rw [hmap]
    rw [if_neg]
    intro hc
    apply h
    have h2 := hmap (pySplitlines (pyStrip tout))
    rw [hc] at h2
    exact List.map_eq_nil_iff.mp h2
  · rename_i h
    have ht := not_not.mp h
    rw [hmap2, if_pos]
    have h2 := hmap (pySplitlines (pyStrip tout))
    rw [ht] at h2
    exact h2.symm

end JJExt
